import Mathlib

/-!
# Verification of the `tablestream` table-rendering library

Shallow embedding of `src/lib.rs` (crate `tablestream`): a streaming
text-table writer with a sizing engine (`calc_sizes` / `penalize_big_cols`),
a buffered render pipeline (`row` / `finish` / `print_headers` / `print_row`)
and a Unicode-width-aware cell formatter (`Alignment::write`).

Modelling decisions:
* A rendered piece of text is a list of `Glyph`s.  Each glyph records the
  codepoint, its UTF-8 byte length (`bytes`, what Rust's `str::len` sums)
  and its terminal display width (`w`, what `unicode_width`'s
  `str::width` sums).  ASCII characters have `bytes = 1` and `w = 1`.
* A row of user data is modelled by the list of cell texts its column
  extractors render (one per column); the extractors are pure
  (`Fn(&mut Formatter, &T)`) so this loses nothing the claims need.
* The output sink is modelled as the list of lines written so far.
* `usize` arithmetic is `Nat`.  Where the Rust code can panic
  (`num_cols - 1` underflow for zero columns, the explicit `panic!` in
  `calc_sizes`) the model uses `Except`; subtractions that are provably
  in range for any constructible session use truncated `Nat` subtraction.
-/

namespace Tablestream

/-- One codepoint as rendered: the character, its UTF-8 byte count, and its
terminal display width (0, 1 or 2 for real Unicode). -/
structure Glyph where
  ch : Char
  bytes : Nat
  w : Nat
deriving DecidableEq, Repr

/-- A piece of rendered text: a sequence of glyphs. -/
abbrev GStr := List Glyph

/-- Display width of a string, as `unicode_width::UnicodeWidthStr::width`:
the sum of the glyph display widths. -/
def gwidth (s : GStr) : Nat := (s.map Glyph.w).sum

/-- Byte length of a string, as Rust's `str::len`: the sum of the UTF-8
byte counts. -/
def glen (s : GStr) : Nat := (s.map Glyph.bytes).sum

/-- Embed an ASCII Lean string as glyphs (1 byte, 1 column each). -/
def asciiG (s : String) : GStr := s.data.map (fun c => ⟨c, 1, 1⟩)

/-- Forget the metrics, recovering the plain text of a glyph string. -/
def plain (s : GStr) : String := String.mk (s.map Glyph.ch)

/-- `n` ASCII spaces. -/
def spacesG (n : Nat) : GStr := List.replicate n ⟨' ', 1, 1⟩

/-- `value.unicode_truncate(col_width)` from the `unicode_truncate` crate:
the longest prefix of the string whose display width is at most the
budget.  Whole codepoints only; a wide glyph that does not fit entirely is
dropped entirely. -/
def utruncate : GStr → Nat → GStr
  | [], _ => []
  | g :: rest, budget =>
    if g.w ≤ budget then g :: utruncate rest (budget - g.w) else []

/-- `enum Alignment` from `lib.rs`. -/
inductive Alignment where
  | Left
  | Center
  | Right
deriving DecidableEq, Repr, Inhabited

/-- `Alignment::write`: truncate `value` to at most `col_width` display
columns, then pad with spaces to exactly `col_width`: all padding on the
right for `Left`, all on the left for `Right`, split (extra space on the
right) for `Center`. -/
def Alignment.write (a : Alignment) (col_width : Nat) (value : GStr) : GStr :=
  let value' := utruncate value col_width
  let width := gwidth value'
  match a with
  | .Left => value' ++ spacesG (col_width - width)
  | .Right => spacesG (col_width - width) ++ value'
  | .Center =>
    let padding := col_width - width
    let half := padding / 2
    let remainder := padding % 2
    spacesG half ++ value' ++ spacesG (half + remainder)

/-- `struct Column` from `lib.rs` (the `writer` closure is replaced by the
pre-rendered cell texts carried in each row; see the module comment). -/
structure Column where
  header : Option GStr
  alignment : Alignment
  min_width : Nat
  /-- calculated size (Rust field `width`), 0 until the sizing engine runs -/
  width : Nat
  /-- max display width encountered in the buffered data (Rust `max_width`) -/
  max_width : Nat
  /-- sum of the display widths of all buffered rows (Rust `width_sum`) -/
  width_sum : Nat
deriving DecidableEq, Repr, Inhabited

/-- `Column::new`: no header, left alignment, `min_width` 1, calculated
fields zeroed. -/
def Column.new : Column :=
  { header := none, alignment := .Left, min_width := 1
    width := 0, max_width := 0, width_sum := 0 }

/-- `Column::header`: store the header and raise `min_width` to the header
text's **byte length** (`name.len()` in the Rust source). -/
def Column.headerSet (c : Column) (name : GStr) : Column :=
  { c with header := some name, min_width := max c.min_width (glen name) }

/-- `Column::min_width`: overwrite the minimum width (unconditionally). -/
def Column.minWidthSet (c : Column) (m : Nat) : Column :=
  { c with min_width := m }

/-- `Column::left` -/
def Column.leftSet (c : Column) : Column := { c with alignment := .Left }

/-- `Column::right` -/
def Column.rightSet (c : Column) : Column := { c with alignment := .Right }

/-- `Column::center` -/
def Column.centerSet (c : Column) : Column := { c with alignment := .Center }

/-- Divider overhead: `(num_cols - 1) * (1 + 2*padding)` from the Rust
source (`max_width`, `calc_sizes`, `penalize_big_cols`). -/
def dividerOverhead (num_cols : Nat) (padding : Bool) : Nat :=
  (num_cols - 1) * (1 + 2 * (if padding then 1 else 0))

/-- Border overhead: `border * (border + padding) * 2` from the Rust source
(0 when borders are off, `2 * (1 + padding)` when on). -/
def borderOverhead (borders padding : Bool) : Nat :=
  (if borders then 1 else 0) * ((if borders then 1 else 0) + (if padding then 1 else 0)) * 2

/-- `struct Stream` from `lib.rs`.  The output sink is the list of written
lines; a buffered row is the list of cell texts its extractors render. -/
structure Stream where
  columns : List Column
  max_width : Nat
  grow : Option Bool
  borders : Bool
  padding : Bool
  title : Option GStr
  sizes_calculated : Bool
  width : Nat
  buffer : List (List GStr)
  output : List GStr
deriving DecidableEq, Repr, Inhabited

/-- `Stream::max_width` (the builder setter): recompute the budget as the
maximum of the requested width, the minimum feasible layout
(`Σ min_width + borders + dividers`) and the title's display width plus
border overhead.  `num_cols - 1` is `Nat` truncated subtraction here; the
separate `maxWidthChecked` models the `usize` underflow panic for zero
columns. -/
def Stream.maxWidthSet (s : Stream) (mw : Nat) : Stream :=
  let dividers := dividerOverhead s.columns.length s.padding
  let borders := borderOverhead s.borders s.padding
  let col_widths := (s.columns.map Column.min_width).sum
  let min_width := col_widths + borders + dividers
  let mw1 := max mw min_width
  let title_width := ((s.title.map gwidth).getD 0) + borders
  { s with max_width := max mw1 title_width }

/-- Checked `usize` subtraction: Rust (with overflow checks) panics with
"attempt to subtract with overflow" when the subtrahend is larger. -/
def checkedSub (a b : Nat) : Except String Nat :=
  if b ≤ a then .ok (a - b) else .error "attempt to subtract with overflow"

/-- `Stream::max_width` with the `num_cols - 1` subtraction modelled as
checked `usize` arithmetic, exposing the underflow panic that a
zero-column stream hits. -/
def Stream.maxWidthChecked (s : Stream) (mw : Nat) : Except String Stream := do
  let nm1 ← checkedSub s.columns.length 1
  let dividers := nm1 * (1 + 2 * (if s.padding then 1 else 0))
  let borders := borderOverhead s.borders s.padding
  let col_widths := (s.columns.map Column.min_width).sum
  let min_width := col_widths + borders + dividers
  let mw1 := max mw min_width
  let title_width := ((s.title.map gwidth).getD 0) + borders
  pure { s with max_width := max mw1 title_width }

/-- The pre-`max_width` state `Stream::new` builds before calling the
`max_width` setter: default flags (`grow` unset, no borders, padding on, no
title), empty buffer, nothing written. -/
def Stream.init (columns : List Column) : Stream :=
  { columns, max_width := 0, grow := none, borders := false, padding := true
    title := none, sizes_calculated := false, width := 0, buffer := [], output := [] }

/-- `Stream::new`: build the initial state and apply the `max_width` setter
with the probed terminal width (80 when the probe fails). -/
def Stream.new (columns : List Column) (term_width : Nat) : Stream :=
  (Stream.init columns).maxWidthSet term_width

/-- `Stream::new` with checked `usize` arithmetic (see `maxWidthChecked`). -/
def Stream.newChecked (columns : List Column) (term_width : Nat) : Except String Stream :=
  (Stream.init columns).maxWidthChecked term_width

/-- `Stream::borders`: set the flag and re-run the `max_width` setter. -/
def Stream.bordersSet (s : Stream) (b : Bool) : Stream :=
  Stream.maxWidthSet { s with borders := b } s.max_width

/-- `Stream::padding`: set the flag and re-run the `max_width` setter. -/
def Stream.paddingSet (s : Stream) (p : Bool) : Stream :=
  Stream.maxWidthSet { s with padding := p } s.max_width

/-- `Stream::grow`: record the caller's choice (no revalidation). -/
def Stream.growSet (s : Stream) (g : Bool) : Stream :=
  { s with grow := some g }

/-- `Stream::title`: store the title and re-run the `max_width` setter. -/
def Stream.titleSet (s : Stream) (t : GStr) : Stream :=
  Stream.maxWidthSet { s with title := some t } s.max_width

/-- `Stream::hr` writes a full-width rule of `-` characters. -/
def hrLine (width : Nat) : GStr := List.replicate width ⟨'-', 1, 1⟩

/-- The cell divider: `" | "` with padding, `"|"` without. -/
def dividerG (padding : Bool) : GStr :=
  if padding then asciiG " | " else asciiG "|"

/-- `Stream::border_left`: `"| "` / `"|"` when borders are on, else nothing. -/
def borderLeftG (borders padding : Bool) : GStr :=
  if borders then (if padding then asciiG "| " else asciiG "|") else []

/-- `Stream::border_right` (sans the newline, which ends the line). -/
def borderRightG (borders padding : Bool) : GStr :=
  if borders then (if padding then asciiG " |" else asciiG "|") else []

/-- Append one finished line to the output sink. -/
def Stream.writeLine (s : Stream) (l : GStr) : Stream :=
  { s with output := s.output ++ [l] }

/-- `Stream::hr` as a pipeline step. -/
def Stream.hr (s : Stream) : Stream := s.writeLine (hrLine s.width)

/-- The cells of one data line: each column formats its cell with its own
alignment at its resolved width (`print_row`'s loop body).  Rows carry one
cell per column; a missing cell renders like the empty string. -/
def renderCells : List Column → List GStr → List GStr
  | [], _ => []
  | c :: cs, [] => c.alignment.write c.width [] :: renderCells cs []
  | c :: cs, x :: xs => c.alignment.write c.width x :: renderCells cs xs

/-- `Stream::print_row`: optional left border, alignment-formatted cells
joined by the divider, optional right border, newline. -/
def Stream.printRow (s : Stream) (row : List GStr) : Stream :=
  s.writeLine (borderLeftG s.borders s.padding
    ++ List.intercalate (dividerG s.padding) (renderCells s.columns row)
    ++ borderRightG s.borders s.padding)

/-- The header line of `print_headers`: every header cell is written with
`Alignment::Center` (a missing header renders as `""`). -/
def headerLineG (columns : List Column) (borders padding : Bool) : GStr :=
  borderLeftG borders padding
  ++ List.intercalate (dividerG padding)
      (columns.map (fun c => Alignment.Center.write c.width (c.header.getD [])))
  ++ borderRightG borders padding

/-- The centered title line of `print_headers`: the title is centered in
`width - 2 * (border + padding)` columns between the borders. -/
def titleLineG (borders padding : Bool) (width : Nat) (t : GStr) : GStr :=
  let border_width := (if borders then 1 else 0) + (if padding then 1 else 0)
  let title_width := width - border_width * 2
  borderLeftG borders padding
    ++ Alignment.Center.write title_width t
    ++ borderRightG borders padding

/-- `Stream::print_headers`: top rule, then (if a title is set) the
centered title followed by a rule, then (if any column has a header) the
centered header line followed by a rule. -/
def Stream.printHeaders (s : Stream) : Stream :=
  let s := s.hr
  let s := match s.title with
    | some t => (s.writeLine (titleLineG s.borders s.padding s.width t)).hr
    | none => s
  if s.columns.any (fun c => c.header.isSome) then
    (s.writeLine (headerLineG s.columns s.borders s.padding)).hr
  else s

/-- One measuring step of `calc_sizes`: render the cell, take its display
width, update the column's running max and sum. -/
def measureCell (c : Column) (cell : GStr) : Column :=
  { c with max_width := max c.max_width (gwidth cell)
           width_sum := c.width_sum + gwidth cell }

/-- Measure one buffered row across all columns (rows carry one cell per
column; extra columns are untouched, as an extractor rendering `""`). -/
def measureRow : List Column → List GStr → List Column
  | [], _ => []
  | cs, [] => cs
  | c :: cs, x :: xs => measureCell c x :: measureRow cs xs

/-- The measuring loop of `calc_sizes` over the whole buffer. -/
def measureCols (cols : List Column) (buffer : List (List GStr)) : List Column :=
  buffer.foldl measureRow cols

/-- The `col_width` closure of `calc_sizes`: a column's natural width,
`max(max_observed, header byte length, min_width)`. -/
def colNatural (c : Column) : Nat :=
  max (max c.max_width ((c.header.map glen).getD 0)) c.min_width

/-- Stable insertion into a (key-)sorted list: the new element goes after
every element whose key is less than or equal to its own. -/
def insertByKey {α : Type} (key : α → Nat) (x : α) : List α → List α
  | [] => [x]
  | y :: ys => if key y ≤ key x then y :: insertByKey key x ys else x :: y :: ys

/-- Stable ascending sort by a `Nat` key (the behaviour of Rust's
`slice::sort_by_key`, which is stable): repeatedly insert, left to right,
after equal keys. -/
def sortByKey {α : Type} (key : α → Nat) (l : List α) : List α :=
  l.foldl (fun acc x => insertByKey key x acc) []

/-- `col_refs.sort_by_key(|c| c.width_sum)`: stable sort of the
(index, column) pairs by `width_sum`, "big" columns to the end.  The index
remembers each column's slot so mutation through the sorted references can
be written back. -/
def sortByWidthSum (ps : List (Nat × Column)) : List (Nat × Column) :=
  sortByKey (fun p => p.2.width_sum) ps

/-- Undo `sortByWidthSum`: order the mutated (index, column) pairs by their
original slot again, recovering `self.columns` after the in-place loop. -/
def restoreOrder (ps : List (Nat × Column)) : List Column :=
  (sortByKey (fun p => p.1) ps).map Prod.snd

/-- The first pass of `penalize_big_cols` over the big columns: with
`remaining / big_cols_left` recomputed at each step, pin any column whose
share falls below its `min_width` to exactly `min_width`, deducting it
from the pool.  Returns the updated pairs, pool, and `big_cols_left`. -/
def pass1 : List (Nat × Column) → Nat → Nat → List (Nat × Column) × Nat × Nat
  | [], remaining, left => ([], remaining, left)
  | (i, c) :: rest, remaining, left =>
    let cols_per := remaining / left
    if cols_per < c.min_width then
      let out := pass1 rest (remaining - c.min_width) (left - 1)
      ((i, { c with width := c.min_width }) :: out.1, out.2)
    else
      let out := pass1 rest remaining left
      ((i, c) :: out.1, out.2)

/-- `big_cols.iter_mut().rev().take(1)`: add the integer-division leftover
to the final (largest `width_sum`) big column. -/
def assignRemainder : List (Nat × Column) → Nat → List (Nat × Column)
  | [], _ => []
  | p :: rest, extra =>
    match rest with
    | [] => [(p.1, { p.2 with width := p.2.width + extra })]
    | q :: rest2 => p :: assignRemainder (q :: rest2) extra

/-- The small-column loop of `penalize_big_cols`: every small column gets
`max(min_width, max_width)`. -/
def smallAssign (small_cols : List (Nat × Column)) : List (Nat × Column) :=
  small_cols.map (fun p => (p.1, { p.2 with width := max p.2.min_width p.2.max_width }))

/-- The second pass of `penalize_big_cols` over the output of `pass1`:
if any big column is still unassigned (`big_cols_left > 0`), give each
width-0 column `remaining / big_cols_left` and hand the division leftover
(when positive) to the last big column. -/
def bigAssign (r1 : List (Nat × Column) × Nat × Nat) : List (Nat × Column) :=
  if 0 < r1.2.2 then
    let cols_per := r1.2.1 / r1.2.2
    let bigA := r1.1.map
      (fun p => if 0 < p.2.width then p else (p.1, { p.2 with width := cols_per }))
    let remaining2 := r1.2.1 - r1.2.2 * cols_per
    if 0 < remaining2 then assignRemainder bigA remaining2 else bigA
  else r1.1

/-- `Stream::penalize_big_cols` (minus the overhead recomputation, whose
value `available_width` is passed in): sort by `width_sum`, check
feasibility of giving the `num_cols - num_big_cols` small columns their
max and the big ones only `min_width`; on success give small columns
`max(min_width, max_width)` (`smallAssign`), run the two big-column passes
(`pass1`, `bigAssign`), and write everything back in place.  The Rust loop
subtracts each small width from the pool in turn; the feasibility gate
keeps the running pool non-negative throughout, so the single subtraction
below agrees with it. -/
def penalizeBigCols (columns : List Column) (available_width : Nat)
    (num_big_cols : Nat) : Option (List Column) :=
  let num_cols := columns.length
  let sorted := sortByWidthSum columns.enum
  let small_cols := sorted.take (num_cols - num_big_cols)
  let big_cols := sorted.drop (num_cols - num_big_cols)
  let needed_width :=
    (small_cols.map (fun p => max p.2.min_width p.2.max_width)).sum
    + (big_cols.map (fun p => p.2.min_width)).sum
  if needed_width > available_width then none
  else
    let small2 := smallAssign small_cols
    let remaining := available_width - (small2.map (fun p => p.2.width)).sum
    some (restoreOrder (small2 ++ bigAssign (pass1 big_cols remaining num_big_cols)))

/-- The `panic!("Couldn't display {} columns worth of data in {} columns of
text", ...)` at the end of `calc_sizes`, carrying the column count and the
budget it names. -/
structure SizeErr where
  num_cols : Nat
  max_width : Nat
deriving DecidableEq, Repr

/-- The natural-fit assignment of `calc_sizes`: every column gets its
natural width plus `extra_width / num_cols`, and the last column (the loop
runs `.rev()`) additionally gets `extra_width % num_cols`. -/
def growAssign : List Column → Nat → Nat → List Column
  | [], _, _ => []
  | [c], per, lastExtra => [{ c with width := colNatural c + per + lastExtra }]
  | c :: rest, per, lastExtra =>
    { c with width := colNatural c + per } :: growAssign rest per lastExtra

/-- `Stream::calc_sizes`: a no-op once sizes are calculated; otherwise
measure the buffer, and either take the natural-fit branch
(`Σ natural < available_width`, growing into the budget when `grow` is
`true` and shrinking the table width otherwise) or penalize 1, 2, ... big
columns until a partition fits, falling to the fatal error when none
does. -/
def Stream.calcSizes (s : Stream) : Except SizeErr Stream :=
  if s.sizes_calculated then .ok s
  else
    let cols := measureCols s.columns s.buffer
    let num_cols := cols.length
    let dividers := dividerOverhead num_cols s.padding
    let borders := borderOverhead s.borders s.padding
    let available_width := s.max_width - borders - dividers
    let all_max := (cols.map colNatural).sum
    if all_max < available_width then
      let pair := if s.grow.getD false
        then (s.max_width, available_width - all_max)
        else (all_max + dividers + borders, 0)
      Except.ok { s with sizes_calculated := true,
                         width := pair.1,
                         columns := growAssign cols (pair.2 / num_cols) (pair.2 % num_cols) }
    else
      match (List.range' 1 num_cols).findSome?
          (fun k => penalizeBigCols cols available_width k) with
      | some cols2 => Except.ok { s with sizes_calculated := true,
                                         width := s.max_width, columns := cols2 }
      | none => Except.error ⟨num_cols, s.max_width⟩

/-- `Stream::write_buffer`: compute sizes, print the header block, then
print and drain every buffered row. -/
def Stream.writeBuffer (s : Stream) : Except SizeErr Stream := do
  let s ← s.calcSizes
  let s := s.printHeaders
  let rows := s.buffer
  let s := { s with buffer := ([] : List (List GStr)) }
  pure (rows.foldl Stream.printRow s)

/-- `Stream::row`: after commit, format and write immediately; before
commit, push onto the buffer, and once it exceeds 100 entries default
`grow` to `true` (if unset) and flush. -/
def Stream.rowAdd (s : Stream) (d : List GStr) : Except SizeErr Stream :=
  if s.sizes_calculated then .ok (s.printRow d)
  else
    let s := { s with buffer := s.buffer ++ [d] }
    if 100 < s.buffer.length then
      Stream.writeBuffer { s with grow := s.grow.or (some true) }
    else .ok s

/-- `Stream::finish`: flush the buffer if non-empty, then write the
trailing horizontal rule. -/
def Stream.finish (s : Stream) : Except SizeErr Stream := do
  let s ← if s.buffer.isEmpty then pure s else s.writeBuffer
  pure s.hr

/-! ## Concrete sessions used by individual claims -/

/-- A run of `n` copies of the ASCII letter `a`. -/
def aRun (n : Nat) : GStr := List.replicate n ⟨'a', 1, 1⟩

/-- The golden scenario's columns: headers `Name`, `Age`, `Favorite Color`
(as in the crate's `basic` test). -/
def goldenCols : List Column :=
  [Column.new.headerSet (asciiG "Name"),
   Column.new.headerSet (asciiG "Age"),
   Column.new.headerSet (asciiG "Favorite Color")]

/-- The golden scenario's session: budget 80, borders off, padding on,
`grow` unset. -/
def goldenStream : Stream := (Stream.new goldenCols 80).maxWidthSet 80

/-- The golden scenario's run: one row `Cody, 41, yellow`, then `finish`. -/
def goldenRun : Except SizeErr Stream := do
  let s ← goldenStream.rowAdd [asciiG "Cody", asciiG "41", asciiG "yellow"]
  s.finish

/-- A session defeating the min-width floor: three columns with minimum
widths 1, 50 and 51, budget 156 (well above the feasibility floor 108),
one row with cell display widths 50, 60 and 70. -/
def minWidthBugStream : Stream :=
  (Stream.new [Column.new, Column.new.minWidthSet 50, Column.new.minWidthSet 51] 80).maxWidthSet 156

/-- Committing the min-width-floor session. -/
def minWidthBugRun : Except SizeErr Stream := do
  let s ← minWidthBugStream.rowAdd [aRun 50, aRun 60, aRun 70]
  s.finish

/-- A session whose title inflates the committed width beyond both the
configured budget (5) and the minimum feasible width (1): one default
column, a 10-column title, `grow` enabled, one 1-wide cell. -/
def titleBoundStream : Stream :=
  (((Stream.new [Column.new] 80).maxWidthSet 5).titleSet (asciiG "AAAAAAAAAA")).growSet true

/-- Committing the title session. -/
def titleBoundRun : Except SizeErr Stream := do
  let s ← titleBoundStream.rowAdd [aRun 1]
  s.finish

/-- A session with `Σ natural = available_width` in which the overflow path
does not return natural widths: the first column's header (`abcde`, byte
length 5) is followed by `min_width(1)`, so `penalize_big_cols` values the
column at `max(min_width, max_observed) = 1`, below its natural width 5.
One buffered row with cell widths 1 and 20; budget 28, so
`available_width = 25 = 5 + 20 = Σ natural`. -/
def exactFitStream : Stream :=
  { (Stream.new [(Column.new.headerSet (asciiG "abcde")).minWidthSet 1, Column.new] 80).maxWidthSet 28
    with buffer := [[aRun 1, aRun 20]] }

/-- Committing the exact-fit session (naturals 5 and 20, available 25). -/
def exactFitRun : Except SizeErr Stream := exactFitStream.finish

/-- A headerless exact-fit session (`Σ natural = 5 + 20 = 25 = available`):
two default columns, budget 28, one row with cell widths 5 and 20. -/
def exactFitOkStream : Stream :=
  { (Stream.new [Column.new, Column.new] 80).maxWidthSet 28
    with buffer := [[aRun 5, aRun 20]] }

/-- A raw (constructor-bypassing) state whose budget is below the
feasibility floor: two columns of minimum width 5, `max_width` 3, padding
and borders off, one buffered row. -/
def infeasibleStream : Stream :=
  { columns := [Column.new.minWidthSet 5, Column.new.minWidthSet 5]
    max_width := 3, grow := none, borders := false, padding := false
    title := none, sizes_calculated := false, width := 0
    buffer := [[aRun 1, aRun 1]], output := [] }

/-- A session sitting exactly at the commit threshold: one default column,
100 buffered rows of one 1-wide cell each. -/
def thresholdStream : Stream :=
  { Stream.new [Column.new] 0 with buffer := List.replicate 100 [aRun 1] }

/-- A small session that `finish` will shrink: one default column, budget
5, a single buffered row with a 1-wide cell. -/
def shrinkStream : Stream :=
  { (Stream.new [Column.new] 80).maxWidthSet 5 with buffer := [[aRun 1]] }

/-- An already committed session: one column resolved at width 3. -/
def committedStream : Stream :=
  { Stream.new [{ Column.new with width := 3 }] 80 with
    sizes_calculated := true, width := 3 }

/-- Replace a column's alignment (used to state that the header row is
insensitive to it). -/
def alignSet (a : Alignment) (c : Column) : Column := { c with alignment := a }

/-! ## Formatter lemmas -/

theorem gwidth_cons (g : Glyph) (s : GStr) : gwidth (g :: s) = g.w + gwidth s := by
  simp [gwidth]

theorem gwidth_append (a b : GStr) : gwidth (a ++ b) = gwidth a + gwidth b := by
  simp [gwidth]

theorem gwidth_spacesG (n : Nat) : gwidth (spacesG n) = n := by
  simp [gwidth, spacesG]

theorem utruncate_width_le (s : GStr) : ∀ w, gwidth (utruncate s w) ≤ w := by
  induction s with
  | nil => intro w; simp [utruncate, gwidth]
  | cons g rest ih =>
    intro w
    by_cases h : g.w ≤ w
    · have := ih (w - g.w)
      simp only [utruncate, if_pos h, gwidth_cons]
      omega
    · simp [utruncate, if_neg h, gwidth]

theorem utruncate_front (s : GStr) : ∀ w, ∃ t, utruncate s w ++ t = s := by
  induction s with
  | nil => intro w; exact ⟨[], rfl⟩
  | cons g rest ih =>
    intro w
    by_cases h : g.w ≤ w
    · obtain ⟨t, ht⟩ := ih (w - g.w)
      exact ⟨t, by simp [utruncate, if_pos h, ht]⟩
    · exact ⟨g :: rest, by simp [utruncate, if_neg h]⟩

theorem utruncate_longest (s : GStr) :
    ∀ w p, (∃ t, p ++ t = s) → gwidth p ≤ w → p.length ≤ (utruncate s w).length := by
  induction s with
  | nil =>
    intro w p ⟨t, ht⟩ _
    have : p = [] := by cases p <;> simp_all
    simp [this]
  | cons g rest ih =>
    intro w p ⟨t, ht⟩ hw
    match p with
    | [] => simp
    | q :: p2 =>
      have hq : q = g := by
        have := congrArg (fun l => l.head?) ht
        simpa using this
      have hrest : p2 ++ t = rest := by
        have := congrArg (fun l => l.tail) ht
        simpa using this
      subst hq
      have hgw : q.w ≤ w := by
        have := gwidth_cons q p2 ▸ hw
        omega
      have hp2 : gwidth p2 ≤ w - q.w := by
        have := gwidth_cons q p2 ▸ hw
        omega
      simp only [utruncate, if_pos hgw, List.length_cons]
      exact Nat.succ_le_succ (ih (w - q.w) p2 ⟨t, hrest⟩ hp2)

/-! ## Sorting lemmas -/

theorem insertByKey_perm {α : Type} (key : α → Nat) (x : α) (l : List α) :
    (insertByKey key x l).Perm (x :: l) := by
  induction l with
  | nil => exact List.Perm.refl _
  | cons y ys ih =>
    by_cases h : key y ≤ key x
    · simp only [insertByKey, if_pos h]
      exact (ih.cons y).trans (List.Perm.swap x y ys)
    · simp only [insertByKey, if_neg h]
      exact List.Perm.refl _

theorem sortByKey_perm_aux {α : Type} (key : α → Nat) :
    ∀ (l acc : List α),
      (l.foldl (fun acc x => insertByKey key x acc) acc).Perm (acc ++ l) := by
  intro l
  induction l with
  | nil => intro acc; simpa using List.Perm.refl acc
  | cons x xs ih =>
    intro acc
    have h1 := ih (insertByKey key x acc)
    have h2 : (insertByKey key x acc ++ xs).Perm ((x :: acc) ++ xs) :=
      (insertByKey_perm key x acc).append_right xs
    have h3 : ((x :: acc) ++ xs).Perm (acc ++ x :: xs) := by
      simpa using List.perm_middle.symm
    exact (h1.trans h2).trans h3

theorem sortByKey_perm {α : Type} (key : α → Nat) (l : List α) :
    (sortByKey key l).Perm l := by
  simpa [sortByKey] using sortByKey_perm_aux key l []

theorem sortByKey_map_sum {α : Type} (key : α → Nat) (g : α → Nat) (l : List α) :
    ((sortByKey key l).map g).sum = (l.map g).sum :=
  ((sortByKey_perm key l).map g).sum_eq

theorem sortByKey_length {α : Type} (key : α → Nat) (l : List α) :
    (sortByKey key l).length = l.length :=
  (sortByKey_perm key l).length_eq

theorem insertByKey_pairwise {α : Type} (key : α → Nat) (x : α) (l : List α)
    (h : l.Pairwise (fun a b => key a ≤ key b)) :
    (insertByKey key x l).Pairwise (fun a b => key a ≤ key b) := by
  induction l with
  | nil => simp [insertByKey]
  | cons y ys ih =>
    obtain ⟨hy, hys⟩ := List.pairwise_cons.mp h
    by_cases hc : key y ≤ key x
    · simp only [insertByKey, if_pos hc]
      refine List.pairwise_cons.mpr ⟨?_, ih hys⟩
      intro z hz
      rcases List.mem_cons.mp ((insertByKey_perm key x ys).mem_iff.mp hz) with rfl | hmem
      · exact hc
      · exact hy z hmem
    · simp only [insertByKey, if_neg hc]
      have hx : key x ≤ key y := by omega
      refine List.pairwise_cons.mpr ⟨?_, List.pairwise_cons.mpr ⟨hy, hys⟩⟩
      intro z hz
      rcases List.mem_cons.mp hz with rfl | hmem
      · exact hx
      · exact le_trans hx (hy z hmem)

theorem sortByKey_pairwise_aux {α : Type} (key : α → Nat) :
    ∀ (l acc : List α), acc.Pairwise (fun a b => key a ≤ key b) →
      (l.foldl (fun acc x => insertByKey key x acc) acc).Pairwise
        (fun a b => key a ≤ key b) := by
  intro l
  induction l with
  | nil => intro acc h; exact h
  | cons x xs ih =>
    intro acc h
    exact ih (insertByKey key x acc) (insertByKey_pairwise key x acc h)

theorem sortByKey_pairwise {α : Type} (key : α → Nat) (l : List α) :
    (sortByKey key l).Pairwise (fun a b => key a ≤ key b) :=
  sortByKey_pairwise_aux key l [] (List.Pairwise.nil)

theorem sortByKey_fst_roundtrip (l : List Column) (ps : List (Nat × Column))
    (h : ps.Perm l.enum) : sortByKey (fun p => p.1) ps = l.enum := by
  have hperm : (sortByKey (fun p => p.1) ps).Perm l.enum :=
    (sortByKey_perm _ ps).trans h
  have hsle : (sortByKey (fun p => p.1) ps).Pairwise (fun a b => a.1 ≤ b.1) :=
    sortByKey_pairwise _ ps
  have hnd : ((sortByKey (fun p => p.1) ps).map Prod.fst).Nodup := by
    have hp : ((sortByKey (fun p => p.1) ps).map Prod.fst).Perm (l.enum.map Prod.fst) :=
      hperm.map _
    rw [hp.nodup_iff, List.enum_map_fst]
    exact List.nodup_range l.length
  have hneq : (sortByKey (fun p => p.1) ps).Pairwise (fun a b => a.1 ≠ b.1) :=
    List.pairwise_map.mp hnd
  have hslt : List.Sorted (fun a b : Nat × Column => a.1 < b.1)
      (sortByKey (fun p => p.1) ps) :=
    (hsle.and hneq).imp (fun hab => lt_of_le_of_ne hab.1 hab.2)
  have henum : List.Sorted (fun a b : Nat × Column => a.1 < b.1) l.enum := by
    have h1 : List.Pairwise (· < ·) (l.enum.map Prod.fst) := by
      rw [List.enum_map_fst]; exact List.pairwise_lt_range l.length
    exact List.pairwise_map.mp h1
  haveI : IsAntisymm (Nat × Column) (fun a b => a.1 < b.1) :=
    ⟨fun a b h1 h2 => absurd h1 (Nat.lt_asymm h2)⟩
  exact List.eq_of_perm_of_sorted hperm hslt henum

theorem restoreOrder_eq (l : List Column) (ps : List (Nat × Column))
    (h : ps.Perm l.enum) : restoreOrder ps = l := by
  unfold restoreOrder
  rw [sortByKey_fst_roundtrip l ps h, List.enum_map_snd]

theorem restoreOrder_map_sum (g : Column → Nat) (ps : List (Nat × Column)) :
    ((restoreOrder ps).map g).sum = (ps.map (fun p => g p.2)).sum := by
  unfold restoreOrder
  rw [List.map_map]
  exact ((sortByKey_perm _ ps).map _).sum_eq

theorem restoreOrder_length (ps : List (Nat × Column)) :
    (restoreOrder ps).length = ps.length := by
  unfold restoreOrder
  rw [List.length_map, sortByKey_length]

theorem enum_map_sum (g : Column → Nat) (l : List Column) :
    (l.enum.map (fun p => g p.2)).sum = (l.map g).sum := by
  have : l.enum.map (fun p => g p.2) = (l.enum.map Prod.snd).map g := by
    rw [List.map_map]; rfl
  rw [this, List.enum_map_snd]

theorem mem_enum_snd {p : Nat × Column} {l : List Column} (h : p ∈ l.enum) :
    p.2 ∈ l := by
  have h2 := List.enum_eq_zip_range l ▸ h
  exact (List.of_mem_zip h2).2

/-! ## Measuring lemmas -/

theorem measureRow_length :
    ∀ (cols : List Column) (row : List GStr),
      (measureRow cols row).length = cols.length := by
  intro cols
  induction cols with
  | nil => intro row; cases row <;> rfl
  | cons c cs ih =>
    intro row
    cases row with
    | nil => rfl
    | cons x xs => simp [measureRow, ih]

theorem measureCols_length :
    ∀ (buffer : List (List GStr)) (cols : List Column),
      (measureCols cols buffer).length = cols.length := by
  intro buffer
  induction buffer with
  | nil => intro cols; rfl
  | cons r rs ih =>
    intro cols
    have h : measureCols cols (r :: rs) = measureCols (measureRow cols r) rs := rfl
    rw [h, ih, measureRow_length]

theorem measureRow_map_pres {β : Type} (f : Column → β)
    (hf : ∀ c cell, f (measureCell c cell) = f c) :
    ∀ (cols : List Column) (row : List GStr),
      (measureRow cols row).map f = cols.map f := by
  intro cols
  induction cols with
  | nil => intro row; cases row <;> rfl
  | cons c cs ih =>
    intro row
    cases row with
    | nil => rfl
    | cons x xs => simp [measureRow, hf, ih]

theorem measureCols_map_pres {β : Type} (f : Column → β)
    (hf : ∀ c cell, f (measureCell c cell) = f c) :
    ∀ (buffer : List (List GStr)) (cols : List Column),
      (measureCols cols buffer).map f = cols.map f := by
  intro buffer
  induction buffer with
  | nil => intro cols; rfl
  | cons r rs ih =>
    intro cols
    have h : measureCols cols (r :: rs) = measureCols (measureRow cols r) rs := rfl
    rw [h, ih, measureRow_map_pres f hf]

theorem measureCols_width0 (cols : List Column) (buffer : List (List GStr))
    (hw0 : ∀ c ∈ cols, c.width = 0) :
    ∀ c ∈ measureCols cols buffer, c.width = 0 := by
  have hmap := measureCols_map_pres Column.width (fun c cell => rfl) buffer cols
  intro c hc
  have hmem : c.width ∈ (measureCols cols buffer).map Column.width :=
    List.mem_map_of_mem _ hc
  rw [hmap] at hmem
  obtain ⟨c0, hc0, he⟩ := List.mem_map.mp hmem
  rw [← he]
  exact hw0 c0 hc0

/-! ## Sizing-pass lemmas -/

theorem growAssign_sum :
    ∀ (cols : List Column) (per lastE : Nat), cols ≠ [] →
      ((growAssign cols per lastE).map Column.width).sum
        = (cols.map colNatural).sum + cols.length * per + lastE := by
  intro cols
  induction cols with
  | nil => intro per lastE h; exact absurd rfl h
  | cons c cs ih =>
    intro per lastE _
    cases cs with
    | nil => simp [growAssign]
    | cons c2 cs2 =>
      simp only [growAssign, List.map_cons, List.sum_cons, List.length_cons]
      rw [ih per lastE (by simp)]
      simp only [List.length_cons, List.map_cons, List.sum_cons]
      ring

theorem growAssign_sum_div (cols : List Column) (e : Nat) (h : cols ≠ []) :
    ((growAssign cols (e / cols.length) (e % cols.length)).map Column.width).sum
      = (cols.map colNatural).sum + e := by
  rw [growAssign_sum _ _ _ h, Nat.add_assoc, Nat.div_add_mod]

theorem pass1_cons (i : Nat) (c : Column) (rest : List (Nat × Column)) (rem left : Nat) :
    pass1 ((i, c) :: rest) rem left
      = if rem / left < c.min_width
        then ((i, { c with width := c.min_width }) ::
                (pass1 rest (rem - c.min_width) (left - 1)).1,
              (pass1 rest (rem - c.min_width) (left - 1)).2)
        else ((i, c) :: (pass1 rest rem left).1, (pass1 rest rem left).2) := by
  by_cases hc : rem / left < c.min_width
  · simp only [pass1, if_pos hc]
  · simp only [pass1, if_neg hc]

theorem pass1_spec :
    ∀ (big : List (Nat × Column)) (rem left : Nat),
    (big.map (fun p => p.2.min_width)).sum ≤ rem →
    (∀ p ∈ big, p.2.width = 0) →
    big.length ≤ left →
    ((pass1 big rem left).1.map (fun p => p.2.width)).sum + (pass1 big rem left).2.1 = rem
    ∧ ((pass1 big rem left).1.map (fun p => p.2.width)).sum
        + (((pass1 big rem left).1.filter (fun p => p.2.width == 0)).map
            (fun p => p.2.min_width)).sum
        ≤ (big.map (fun p => p.2.min_width)).sum
    ∧ (pass1 big rem left).2.2 + (pass1 big rem left).1.length
        = left + (pass1 big rem left).1.countP (fun p => p.2.width == 0)
    ∧ (pass1 big rem left).1.length = big.length := by
  intro big
  induction big with
  | nil =>
    intro rem left h1 h2 h3
    simp [pass1]
  | cons p rest ih =>
    obtain ⟨i, c⟩ := p
    intro rem left h1 h2 h3
    simp only [List.map_cons, List.sum_cons] at h1
    have hw0 : c.width = 0 := h2 (i, c) (by simp)
    have hrest0 : ∀ q ∈ rest, q.2.width = 0 := fun q hq => h2 q (by simp [hq])
    have hlen : rest.length + 1 ≤ left := by simpa using h3
    by_cases hc : rem / left < c.min_width
    · -- pinned: width := min_width, pool and count decrease
      have hminpos : 0 < c.min_width := Nat.lt_of_le_of_lt (Nat.zero_le _) hc
      obtain ⟨A, B, C, D⟩ := ih (rem - c.min_width) (left - 1) (by omega) hrest0 (by omega)
      have hwb : (c.min_width == 0) = false := by
        simp only [beq_eq_false_iff_ne, ne_eq]
        omega
      simp only [pass1, if_pos hc, List.map_cons, List.sum_cons, List.filter_cons,
        List.countP_cons, List.length_cons, hwb, Bool.false_eq_true, if_false]
      refine ⟨by omega, by omega, by omega, by omega⟩
    · -- not pinned: untouched, pool and count unchanged
      obtain ⟨A, B, C, D⟩ := ih rem left (by omega) hrest0 (by omega)
      simp only [pass1, if_neg hc, List.map_cons, List.sum_cons, List.filter_cons,
        List.countP_cons, List.length_cons]
      have hw0b : (c.width == 0) = true := by simp [hw0]
      simp only [hw0b, if_true]
      refine ⟨by omega, ?_, by omega, by omega⟩
      simp only [List.map_cons, List.sum_cons, hw0]
      omega

/-! placeholder marker -/

theorem pass1_exists_unpinned :
    ∀ (big : List (Nat × Column)) (rem : Nat),
    big ≠ [] →
    (big.map (fun p => p.2.min_width)).sum ≤ rem →
    (∀ p ∈ big, p.2.width = 0) →
    0 < (pass1 big rem big.length).1.countP (fun p => p.2.width == 0) := by
  intro big
  induction big with
  | nil => intro rem h; exact absurd rfl h
  | cons p rest ih =>
    obtain ⟨i, c⟩ := p
    intro rem _ h1 h2
    simp only [List.map_cons, List.sum_cons] at h1
    have hw0 : c.width = 0 := h2 (i, c) (by simp)
    have hrest0 : ∀ q ∈ rest, q.2.width = 0 := fun q hq => h2 q (by simp [hq])
    simp only [List.length_cons]
    by_cases hc : rem / (rest.length + 1) < c.min_width
    · cases rest with
      | nil =>
        exfalso
        simp only [List.length_nil, Nat.zero_add, Nat.div_one] at hc
        omega
      | cons q rest2 =>
        have hminpos : 0 < c.min_width := Nat.lt_of_le_of_lt (Nat.zero_le _) hc
        have hne : q :: rest2 ≠ [] := by simp
        have hih := ih (rem - c.min_width) hne (by omega) hrest0
        have hwb : (c.min_width == 0) = false := by
          simp only [beq_eq_false_iff_ne, ne_eq]
          omega
        rw [pass1_cons, if_pos hc]
        simp only [List.countP_cons, List.length_cons, Nat.add_sub_cancel, hwb,
          Bool.false_eq_true, if_false]
        simpa using hih
    · simp only [pass1, if_neg hc, List.countP_cons]
      have hw0b : (c.width == 0) = true := by simp [hw0]
      simp [hw0b]

theorem assign_sum (per : Nat) :
    ∀ (l : List (Nat × Column)),
    ((l.map (fun p => if 0 < p.2.width then p else (p.1, { p.2 with width := per }))).map
        (fun p => p.2.width)).sum
      = (l.map (fun p => p.2.width)).sum + (l.countP (fun p => p.2.width == 0)) * per := by
  intro l
  induction l with
  | nil => simp
  | cons p rest ih =>
    simp only [List.map_map] at ih
    by_cases h : 0 < p.2.width
    · have hb : (p.2.width == 0) = false := by
        simp only [beq_eq_false_iff_ne, ne_eq]
        omega
      simp [List.countP_cons, hb, ih, if_pos h]
      ring
    · have hz : p.2.width = 0 := by omega
      have hb : (p.2.width == 0) = true := by simp [hz]
      simp [List.countP_cons, hb, ih, if_neg h, hz]
      ring

theorem assignRemainder_sum :
    ∀ (l : List (Nat × Column)) (e : Nat), l ≠ [] →
    ((assignRemainder l e).map (fun p => p.2.width)).sum
      = (l.map (fun p => p.2.width)).sum + e := by
  intro l
  induction l with
  | nil => intro e h; exact absurd rfl h
  | cons p rest ih =>
    intro e _
    cases rest with
    | nil =>
      simp [assignRemainder]
    | cons q rest2 =>
      simp only [assignRemainder, List.map_cons, List.sum_cons, ih _ (by simp)]
      ring

theorem assignRemainder_length :
    ∀ (l : List (Nat × Column)) (e : Nat),
      (assignRemainder l e).length = l.length := by
  intro l
  induction l with
  | nil => intro e; rfl
  | cons p rest ih =>
    intro e
    cases rest with
    | nil => rfl
    | cons q rest2 =>
      simp only [assignRemainder, List.length_cons, ih]

theorem bigAssign_sum (r1 : List (Nat × Column) × Nat × Nat)
    (hcnt : r1.2.2 = r1.1.countP (fun p => p.2.width == 0))
    (hpos : 0 < r1.2.2) :
    ((bigAssign r1).map (fun p => p.2.width)).sum
      = (r1.1.map (fun p => p.2.width)).sum + r1.2.1 := by
  have hne : r1.1 ≠ [] := by
    intro h
    rw [hcnt, h] at hpos
    simp at hpos
  have hP : r1.2.2 * (r1.2.1 / r1.2.2) ≤ r1.2.1 := by
    rw [Nat.mul_comm]
    exact Nat.div_mul_le_self r1.2.1 r1.2.2
  have hA := assign_sum (r1.2.1 / r1.2.2) r1.1
  unfold bigAssign
  rw [if_pos hpos]
  by_cases hr : 0 < r1.2.1 - r1.2.2 * (r1.2.1 / r1.2.2)
  · rw [if_pos hr]
    rw [assignRemainder_sum _ _ (by simpa using hne)]
    rw [hA, ← hcnt]
    omega
  · rw [if_neg hr]
    rw [hA, ← hcnt]
    omega

theorem bigAssign_length (r1 : List (Nat × Column) × Nat × Nat) :
    (bigAssign r1).length = r1.1.length := by
  unfold bigAssign
  by_cases hpos : 0 < r1.2.2
  · rw [if_pos hpos]
    by_cases hr : 0 < r1.2.1 - r1.2.2 * (r1.2.1 / r1.2.2)
    · rw [if_pos hr, assignRemainder_length, List.length_map]
    · rw [if_neg hr, List.length_map]
  · rw [if_neg hpos]

theorem smallAssign_sum (small_cols : List (Nat × Column)) :
    ((smallAssign small_cols).map (fun p => p.2.width)).sum
      = (small_cols.map (fun p => max p.2.min_width p.2.max_width)).sum := by
  unfold smallAssign
  rw [List.map_map]
  rfl

/-- Conservation through `penalize_big_cols`: a successful partition hands
out exactly `available_width` columns of text, and keeps the column
count. -/
theorem penalizeBigCols_sum (cols : List Column) (avail k : Nat)
    (hk1 : 1 ≤ k) (hkn : k ≤ cols.length)
    (hw0 : ∀ c ∈ cols, c.width = 0) :
    ∀ cols2, penalizeBigCols cols avail k = some cols2 →
      (cols2.map Column.width).sum = avail ∧ cols2.length = cols.length := by
  intro cols2 hok
  simp only [penalizeBigCols] at hok
  split at hok
  · exact absurd hok (by simp)
  · rename_i hgate
    have hperm : (sortByWidthSum cols.enum).Perm cols.enum := sortByKey_perm _ _
    have hlen : (sortByWidthSum cols.enum).length = cols.length := by
      unfold sortByWidthSum
      rw [sortByKey_length, List.enum_length]
    have hws : ∀ p ∈ sortByWidthSum cols.enum, p.2.width = 0 := by
      intro p hp
      exact hw0 p.2 (mem_enum_snd (hperm.subset hp))
    have hbl : ((sortByWidthSum cols.enum).drop (cols.length - k)).length = k := by
      rw [List.length_drop, hlen]
      omega
    have hbw0 : ∀ p ∈ (sortByWidthSum cols.enum).drop (cols.length - k),
        p.2.width = 0 := fun p hp => hws p (List.mem_of_mem_drop hp)
    have hgate' : ((((sortByWidthSum cols.enum).take (cols.length - k)).map
          (fun p => max p.2.min_width p.2.max_width)).sum
        + (((sortByWidthSum cols.enum).drop (cols.length - k)).map
          (fun p => p.2.min_width)).sum) ≤ avail := by omega
    have hrem : (((sortByWidthSum cols.enum).drop (cols.length - k)).map
          (fun p => p.2.min_width)).sum
        ≤ avail - ((smallAssign ((sortByWidthSum cols.enum).take (cols.length - k))).map
          (fun p => p.2.width)).sum := by
      rw [smallAssign_sum]
      omega
    obtain ⟨A, B, C, D⟩ := pass1_spec
      ((sortByWidthSum cols.enum).drop (cols.length - k))
      (avail - ((smallAssign ((sortByWidthSum cols.enum).take (cols.length - k))).map
        (fun p => p.2.width)).sum)
      k hrem hbw0 (by omega)
    have hunp := pass1_exists_unpinned
      ((sortByWidthSum cols.enum).drop (cols.length - k))
      (avail - ((smallAssign ((sortByWidthSum cols.enum).take (cols.length - k))).map
        (fun p => p.2.width)).sum)
      (by intro h; rw [h] at hbl; simp at hbl; omega) hrem hbw0
    rw [hbl] at hunp
    -- `big_cols_left` after the first pass equals the number of width-0 columns
    have hcnt : (pass1 ((sortByWidthSum cols.enum).drop (cols.length - k))
          (avail - ((smallAssign ((sortByWidthSum cols.enum).take (cols.length - k))).map
            (fun p => p.2.width)).sum) k).2.2
        = (pass1 ((sortByWidthSum cols.enum).drop (cols.length - k))
          (avail - ((smallAssign ((sortByWidthSum cols.enum).take (cols.length - k))).map
            (fun p => p.2.width)).sum) k).1.countP (fun p => p.2.width == 0) := by
      omega
    have hpos : 0 < (pass1 ((sortByWidthSum cols.enum).drop (cols.length - k))
          (avail - ((smallAssign ((sortByWidthSum cols.enum).take (cols.length - k))).map
            (fun p => p.2.width)).sum) k).2.2 := by
      omega
    have hbig := bigAssign_sum _ hcnt hpos
    -- assemble
    have hres : cols2 = restoreOrder
        (smallAssign ((sortByWidthSum cols.enum).take (cols.length - k))
          ++ bigAssign (pass1 ((sortByWidthSum cols.enum).drop (cols.length - k))
              (avail - ((smallAssign ((sortByWidthSum cols.enum).take (cols.length - k))).map
                (fun p => p.2.width)).sum) k)) := by
      exact (Option.some.injEq _ _ ▸ hok).symm
    constructor
    · rw [hres, restoreOrder_map_sum, List.map_append, List.sum_append, hbig, A,
        smallAssign_sum]
      omega
    · rw [hres, restoreOrder_length, List.length_append, bigAssign_length, D, hbl]
      have hsl : ((smallAssign ((sortByWidthSum cols.enum).take (cols.length - k))).length)
          = cols.length - k := by
        unfold smallAssign
        rw [List.length_map, List.length_take, hlen]
        omega
      omega

/-- A failed full partition (`num_big = num_cols`) means even the bare
minimum widths do not fit. -/
theorem penalizeBigCols_none_all (cols : List Column) (avail : Nat)
    (h : penalizeBigCols cols avail cols.length = none) :
    avail < (cols.map Column.min_width).sum := by
  simp only [penalizeBigCols] at h
  split at h
  · rename_i hgate
    rw [Nat.sub_self, List.take_zero, List.drop_zero] at hgate
    simp only [List.map_nil, List.sum_nil, Nat.zero_add] at hgate
    have hperm : (sortByWidthSum cols.enum).Perm cols.enum := sortByKey_perm _ _
    have hmins : ((sortByWidthSum cols.enum).map (fun p => p.2.min_width)).sum
        = (cols.map Column.min_width).sum := by
      rw [(hperm.map (fun p => p.2.min_width)).sum_eq]
      exact enum_map_sum Column.min_width cols
    omega
  · exact absurd h (by simp)

/-! ## Claim theorems -/

/-- C3 (confirmed): `Alignment::write` always emits exactly `col_width`
display columns; its text part is the longest whole-glyph front segment of
the input whose display width fits; the slack is all trailing for `Left`,
all leading for `Right`, and split with the odd extra column trailing for
`Center`. -/
theorem cell_formatter_contract (a : Alignment) (w : Nat) (v : GStr) :
    gwidth (a.write w v) = w
    ∧ (∃ t, utruncate v w ++ t = v)
    ∧ gwidth (utruncate v w) ≤ w
    ∧ (∀ p, (∃ t, p ++ t = v) → gwidth p ≤ w → p.length ≤ (utruncate v w).length)
    ∧ (∃ l r, a.write w v = spacesG l ++ utruncate v w ++ spacesG r
        ∧ l + r = w - gwidth (utruncate v w)
        ∧ (a = .Left → l = 0)
        ∧ (a = .Right → r = 0)
        ∧ (a = .Center →
            l = (w - gwidth (utruncate v w)) / 2
            ∧ r = (w - gwidth (utruncate v w)) / 2 + (w - gwidth (utruncate v w)) % 2)) := by
  have hle := utruncate_width_le v w
  refine ⟨?_, utruncate_front v w, hle, utruncate_longest v w, ?_⟩
  · cases a <;>
      simp only [Alignment.write, gwidth_append, gwidth_spacesG] <;>
      omega
  · cases a with
    | Left =>
      refine ⟨0, w - gwidth (utruncate v w), ?_, by omega, fun _ => rfl, by simp, by simp⟩
      simp [Alignment.write, spacesG]
    | Right =>
      refine ⟨w - gwidth (utruncate v w), 0, ?_, by omega, by simp, fun _ => rfl, by simp⟩
      simp [Alignment.write, spacesG]
    | Center =>
      refine ⟨(w - gwidth (utruncate v w)) / 2,
              (w - gwidth (utruncate v w)) / 2 + (w - gwidth (utruncate v w)) % 2,
              ?_, by omega, by simp, by simp, fun _ => ⟨rfl, rfl⟩⟩
      simp [Alignment.write]

/-- C3 witness: the contract evaluated for centered text of width 2 in a
5-column cell. -/
theorem cell_formatter_contract_witness :
    gwidth (Alignment.Center.write 5 (asciiG "ab")) = 5 :=
  (cell_formatter_contract .Center 5 (asciiG "ab")).1

/-- C4 (confirmed): when no `num_big` in `1..=num_cols` is feasible,
`calc_sizes` fails with the fatal error carrying the column count and the
budget it names; and whenever `max_width` is at least the construction-time
floor (`Σ min_width` plus border and divider overhead), some `num_big` is
feasible, so the fatal branch is never reached. -/
theorem infeasible_layout_error (s : Stream) (hun : s.sizes_calculated = false)
    (hn : 1 ≤ s.columns.length) :
    ((∀ k, 1 ≤ k → k ≤ s.columns.length →
        penalizeBigCols (measureCols s.columns s.buffer)
          (s.max_width - borderOverhead s.borders s.padding
            - dividerOverhead (measureCols s.columns s.buffer).length s.padding) k
          = none) →
      s.calcSizes = Except.error ⟨s.columns.length, s.max_width⟩)
    ∧ (((s.columns.map Column.min_width).sum + borderOverhead s.borders s.padding
          + dividerOverhead s.columns.length s.padding ≤ s.max_width) →
        ∃ s2, s.calcSizes = Except.ok s2) := by
  have hmlen := measureCols_length s.buffer s.columns
  have hmmin := measureCols_map_pres Column.min_width (fun c cell => rfl)
    s.buffer s.columns
  have hminle : ((measureCols s.columns s.buffer).map Column.min_width).sum
      ≤ ((measureCols s.columns s.buffer).map colNatural).sum :=
    List.sum_le_sum (fun c _ => Nat.le_max_right _ c.min_width)
  constructor
  · intro hall
    have hkm := hall s.columns.length hn (le_refl _)
    rw [← hmlen] at hkm
    have hlt := penalizeBigCols_none_all _ _ hkm
    rw [hmmin] at hlt
    have hnotfit : ¬ (((measureCols s.columns s.buffer).map colNatural).sum
        < s.max_width - borderOverhead s.borders s.padding
          - dividerOverhead (measureCols s.columns s.buffer).length s.padding) := by
      rw [hmmin] at hminle
      omega
    have hnone : (List.range' 1 (measureCols s.columns s.buffer).length).findSome?
        (fun k => penalizeBigCols (measureCols s.columns s.buffer)
          (s.max_width - borderOverhead s.borders s.padding
            - dividerOverhead (measureCols s.columns s.buffer).length s.padding) k)
        = none := by
      rw [List.findSome?_eq_none]
      intro k hk
      obtain ⟨hk1, hk2⟩ := List.mem_range'_1.mp hk
      rw [hmlen] at hk2
      exact hmlen ▸ hall k hk1 (by omega)
    simp only [Stream.calcSizes, hun, Bool.false_eq_true, if_false, if_neg hnotfit,
      hnone]
    rw [hmlen]
  · intro hfloor
    by_cases hfit : ((measureCols s.columns s.buffer).map colNatural).sum
        < s.max_width - borderOverhead s.borders s.padding
          - dividerOverhead (measureCols s.columns s.buffer).length s.padding
    · simp only [Stream.calcSizes, hun, Bool.false_eq_true, if_false, if_pos hfit]
      exact ⟨_, rfl⟩
    · have hfeas : ((measureCols s.columns s.buffer).map Column.min_width).sum
          ≤ s.max_width - borderOverhead s.borders s.padding
            - dividerOverhead (measureCols s.columns s.buffer).length s.padding := by
        rw [hmmin, hmlen]
        omega
      cases hfs : (List.range' 1 (measureCols s.columns s.buffer).length).findSome?
          (fun k => penalizeBigCols (measureCols s.columns s.buffer)
            (s.max_width - borderOverhead s.borders s.padding
              - dividerOverhead (measureCols s.columns s.buffer).length s.padding) k) with
      | none =>
        exfalso
        have hkn := List.findSome?_eq_none.mp hfs (measureCols s.columns s.buffer).length
          (List.mem_range'_1.mpr ⟨by omega, by omega⟩)
        exact absurd (penalizeBigCols_none_all _ _ hkn) (by omega)
      | some cols2 =>
        simp only [Stream.calcSizes, hun, Bool.false_eq_true, if_false, if_neg hfit,
          hfs]
        exact ⟨_, rfl⟩

/-- C4 witness: the error branch on a raw infeasible state (budget 3,
minimum widths 5 and 5), and the success branch on a validated
one-column stream. -/
theorem infeasible_layout_error_witness :
    infeasibleStream.calcSizes
      = Except.error ⟨infeasibleStream.columns.length, infeasibleStream.max_width⟩
    ∧ ∃ s2, (Stream.new [Column.new] 80).calcSizes = Except.ok s2 := by
  constructor
  · refine (infeasible_layout_error infeasibleStream rfl (by decide)).1 ?_
    intro k h1 h2
    have : k = 1 ∨ k = 2 := by
      have : infeasibleStream.columns.length = 2 := rfl
      omega
    rcases this with rfl | rfl
    · rfl
    · rfl
  · exact (infeasible_layout_error (Stream.new [Column.new] 80) rfl (by decide)).2
      (by decide)

/-- C7 (confirmed): the golden small-table scenario (3 headed columns, one
row `Cody, 41, yellow`, budget 80, borders off, padding on, `grow` unset)
emits exactly the five expected lines. -/
theorem golden_small_table :
    goldenRun.map (fun s => s.output.map plain)
      = Except.ok ["---------------------------",
                   "Name | Age | Favorite Color",
                   "---------------------------",
                   "Cody | 41  | yellow        ",
                   "---------------------------"] := by
  rfl

/-- C1 (code bug): in the committed `minWidthBugStream` session the column
with `min_width = 50` resolves to width 49.  The first pass of
`penalize_big_cols` re-divides the pool at every step, so a later pin
(the 51-minimum column) shrinks the share of a column that had already
passed its check. -/
theorem overflow_min_width_violation :
    minWidthBugRun.map (fun s => s.columns.map (fun c => (c.width, c.min_width)))
      = Except.ok [(49, 1), (49, 50), (52, 51)]
    ∧ minWidthBugRun.map (fun s => s.columns.any (fun c => decide (c.width < c.min_width)))
      = Except.ok true := by
  exact ⟨rfl, rfl⟩

/-- C2 counterexample: in `titleBoundStream` (configured budget 5, one
default column so minimum feasible width 1, a title of display width 10,
`grow` on) the committed table width is 10, strictly above
`max(configured_budget, minimum_feasible_width) = max 5 1 = 5`: the claim's
bound omits the title term of the `max_width` setter. -/
theorem title_raises_width_beyond_budget :
    titleBoundRun.map (fun s => s.width) = Except.ok 10
    ∧ (titleBoundStream.columns.map Column.min_width).sum
        + borderOverhead titleBoundStream.borders titleBoundStream.padding
        + dividerOverhead titleBoundStream.columns.length titleBoundStream.padding
      = 1
    ∧ ¬ (10 ≤ max 5 1) := by
  exact ⟨rfl, rfl, by decide⟩

/-- C2 amended: for every committed session,
`Σ resolved_width + divider_overhead + border_overhead = table_width`, and
`table_width ≤ max(effective configured budget, minimum feasible width,
title display width + border overhead)` — the title term (absent from the
original claim) is required because the `max_width` setter also raises the
budget to fit the title.  `hmw` says the session's budget is what the last
`max_width` revalidation computed from some requested budget `b`, which
every constructible session satisfies. -/
theorem width_conservation_amended (s : Stream) (b : Nat)
    (hne : s.columns ≠ [])
    (hw0 : ∀ c ∈ s.columns, c.width = 0)
    (hmw : s.max_width
        = max (max b ((s.columns.map Column.min_width).sum
            + borderOverhead s.borders s.padding
            + dividerOverhead s.columns.length s.padding))
          (((s.title.map gwidth).getD 0) + borderOverhead s.borders s.padding))
    (hun : s.sizes_calculated = false) :
    ∀ s2, s.calcSizes = Except.ok s2 →
      (s2.columns.map Column.width).sum
          + dividerOverhead s.columns.length s.padding
          + borderOverhead s.borders s.padding
        = s2.width
      ∧ s2.width
          ≤ max (max b ((s.columns.map Column.min_width).sum
              + borderOverhead s.borders s.padding
              + dividerOverhead s.columns.length s.padding))
            (((s.title.map gwidth).getD 0) + borderOverhead s.borders s.padding) := by
  intro s2 hok
  have hmlen := measureCols_length s.buffer s.columns
  have hdl : dividerOverhead (measureCols s.columns s.buffer).length s.padding
      = dividerOverhead s.columns.length s.padding := by rw [hmlen]
  have hw0m : ∀ c ∈ measureCols s.columns s.buffer, c.width = 0 := by
    have hmap := measureCols_map_pres Column.width (fun c cell => rfl)
      s.buffer s.columns
    intro c hc
    have hmem : c.width ∈ (measureCols s.columns s.buffer).map Column.width :=
      List.mem_map_of_mem _ hc
    rw [hmap] at hmem
    obtain ⟨c0, hc0, he⟩ := List.mem_map.mp hmem
    rw [← he]
    exact hw0 c0 hc0
  have hOH : borderOverhead s.borders s.padding
      + dividerOverhead s.columns.length s.padding ≤ s.max_width := by
    rw [hmw]
    omega
  have hmne : measureCols s.columns s.buffer ≠ [] := by
    intro h
    rw [h] at hmlen
    exact hne (List.length_eq_zero.mp hmlen.symm)
  simp only [Stream.calcSizes, hun, Bool.false_eq_true, if_false] at hok
  by_cases hfit : ((measureCols s.columns s.buffer).map colNatural).sum
      < s.max_width - borderOverhead s.borders s.padding
        - dividerOverhead (measureCols s.columns s.buffer).length s.padding
  · rw [if_pos hfit] at hok
    by_cases hgrow : s.grow.getD false = true
    · rw [if_pos hgrow] at hok
      rw [Except.ok.injEq] at hok
      subst hok
      constructor
      · simp only []
        rw [growAssign_sum_div _ _ hmne]
        rw [hdl] at hfit ⊢
        omega
      · rw [← hmw]
    · rw [if_neg hgrow] at hok
      rw [Except.ok.injEq] at hok
      subst hok
      constructor
      · simp only []
        rw [growAssign_sum_div _ _ hmne]
        rw [hdl] at hfit ⊢
        omega
      · simp only []
        rw [← hmw]
        rw [hdl] at hfit
        omega
  · rw [if_neg hfit] at hok
    cases hfs : (List.range' 1 (measureCols s.columns s.buffer).length).findSome?
        (fun k => penalizeBigCols (measureCols s.columns s.buffer)
          (s.max_width - borderOverhead s.borders s.padding
            - dividerOverhead (measureCols s.columns s.buffer).length s.padding) k) with
    | none =>
      rw [hfs] at hok
      simp at hok
    | some cols2 =>
      rw [hfs] at hok
      rw [Except.ok.injEq] at hok
      subst hok
      obtain ⟨k, hk, hpen⟩ := List.exists_of_findSome?_eq_some hfs
      obtain ⟨hk1, hk2⟩ := List.mem_range'_1.mp hk
      obtain ⟨hsum, _⟩ := penalizeBigCols_sum (measureCols s.columns s.buffer)
        (s.max_width - borderOverhead s.borders s.padding
          - dividerOverhead (measureCols s.columns s.buffer).length s.padding)
        k hk1 (by omega) hw0m cols2 hpen
      constructor
      · simp only []
        rw [hsum, hdl]
        omega
      · rw [← hmw]

/-- C2 witness: the amended statement evaluated on the golden session
(budget 80, three headed columns): `21 + 6 + 0 = 27` and `27 ≤ 80`. -/
theorem width_conservation_amended_witness :
    ∃ s2, goldenStream.calcSizes = Except.ok s2
      ∧ (s2.columns.map Column.width).sum
          + dividerOverhead goldenStream.columns.length goldenStream.padding
          + borderOverhead goldenStream.borders goldenStream.padding
        = s2.width := by
  have h := width_conservation_amended goldenStream 80 (by decide) (by decide)
    (by decide) rfl
  exact ⟨_, rfl, (h _ rfl).1⟩

/-- C6 counterexample: the header `é` (one glyph, 2 UTF-8 bytes, display
width 1) raises `min_width` to 2, not to the display width 1 the claim
predicts. -/
theorem header_min_width_not_display :
    (Column.new.headerSet [⟨'é', 2, 1⟩]).min_width = 2
    ∧ gwidth [⟨'é', 2, 1⟩] = 1
    ∧ (Column.new.headerSet [⟨'é', 2, 1⟩]).min_width
        ≠ max Column.new.min_width (gwidth [⟨'é', 2, 1⟩]) := by
  refine ⟨rfl, rfl, by decide⟩

/-- C6 amended: setting a header raises `min_width` to the header's **byte
length** (`name.len()`), and the natural width maximand is likewise the
byte length; the two agree with display width exactly when every glyph's
byte count equals its display width (in particular for ASCII headers). -/
theorem header_min_width_byte_length (c : Column) (h : GStr) :
    (c.headerSet h).min_width = max c.min_width (glen h)
    ∧ colNatural (c.headerSet h)
        = max (max c.max_width (glen h)) (max c.min_width (glen h))
    ∧ ((∀ g ∈ h, g.bytes = g.w) → glen h = gwidth h) := by
  refine ⟨rfl, by simp [colNatural, Column.headerSet], ?_⟩
  intro hg
  induction h with
  | nil => rfl
  | cons g rest ih =>
    have hgr : g.bytes = g.w := hg g (by simp)
    have := ih (fun x hx => hg x (by simp [hx]))
    simp only [glen, gwidth, List.map_cons, List.sum_cons] at this ⊢
    omega

/-- C6 witness: the amended statement evaluated on the ASCII header
`Age`. -/
theorem header_min_width_byte_length_witness :
    glen (asciiG "Age") = gwidth (asciiG "Age") :=
  (header_min_width_byte_length Column.new (asciiG "Age")).2.2 (by decide)

/-- C10 counterexample: in `exactFitStream` the naturals are `[5, 20]` and
`available_width` is `25 = 5 + 20`, so the overflow path runs — but the
committed widths are `[1, 24]`, not the natural widths: the claim's "each
column still ends with its natural width" fails when a column's header
byte length exceeds `max(min_width, max_observed)` (here `min_width(1)`
was applied after `header("abcde")`), because `penalize_big_cols` ignores
headers. -/
theorem exact_fit_counterexample :
    ((measureCols exactFitStream.columns exactFitStream.buffer).map colNatural) = [5, 20]
    ∧ exactFitStream.max_width - borderOverhead exactFitStream.borders exactFitStream.padding
        - dividerOverhead exactFitStream.columns.length exactFitStream.padding = 25
    ∧ exactFitRun.map (fun s => (s.width, s.columns.map Column.width))
        = Except.ok (28, [1, 24])
    ∧ ([1, 24] : List Nat) ≠ [5, 20] := by
  exact ⟨rfl, rfl, rfl, by decide⟩

/-- C10 (corrected): the natural-fit comparison is strict — when
`Σ natural = available_width` the natural-fit branch is not taken and the
overflow path runs, the committed table width is the full `max_width`
(even with `grow` false or unset: `s.grow` is arbitrary here), and every
column still ends with its natural width **provided** every column's
header byte length is at most `max(min_width, max_observed)` (true unless
`min_width` was lowered after setting a header; without that proviso the
original claim fails, see the counterexample).  `hOH` is the session
invariant every constructed stream's `max_width` setter guarantees. -/
theorem overflow_on_exact_fit (s : Stream)
    (hne : s.columns ≠ [])
    (hw0 : ∀ c ∈ s.columns, c.width = 0)
    (hOH : borderOverhead s.borders s.padding
        + dividerOverhead s.columns.length s.padding ≤ s.max_width)
    (hun : s.sizes_calculated = false)
    (hhdr : ∀ c ∈ measureCols s.columns s.buffer,
        ((c.header.map glen).getD 0) ≤ max c.min_width c.max_width)
    (heq : ((measureCols s.columns s.buffer).map colNatural).sum
        = s.max_width - borderOverhead s.borders s.padding
          - dividerOverhead s.columns.length s.padding) :
    s.calcSizes = Except.ok { s with
      sizes_calculated := true,
      width := s.max_width,
      columns := (measureCols s.columns s.buffer).map
        (fun c => { c with width := colNatural c }) } := by
  have hmlen := measureCols_length s.buffer s.columns
  have hn1 : 1 ≤ (measureCols s.columns s.buffer).length := by
    rw [hmlen]
    rcases hcs : s.columns with _ | ⟨c0, cs⟩
    · exact absurd hcs hne
    · simp
  have hdl : dividerOverhead (measureCols s.columns s.buffer).length s.padding
      = dividerOverhead s.columns.length s.padding := by rw [hmlen]
  have hw0m := measureCols_width0 s.columns s.buffer hw0
  have hnat : ∀ c ∈ measureCols s.columns s.buffer,
      colNatural c = max c.min_width c.max_width := by
    intro c hc
    have h := hhdr c hc
    unfold colNatural
    omega
  have hperm : (sortByWidthSum (measureCols s.columns s.buffer).enum).Perm
      (measureCols s.columns s.buffer).enum := sortByKey_perm _ _
  have hslen : (sortByWidthSum (measureCols s.columns s.buffer).enum).length
      = (measureCols s.columns s.buffer).length := by
    unfold sortByWidthSum
    rw [sortByKey_length, List.enum_length]
  have hsplit := List.take_append_drop ((measureCols s.columns s.buffer).length - 1)
    (sortByWidthSum (measureCols s.columns s.buffer).enum)
  have hblen : ((sortByWidthSum (measureCols s.columns s.buffer).enum).drop
      ((measureCols s.columns s.buffer).length - 1)).length = 1 := by
    rw [List.length_drop, hslen]
    omega
  obtain ⟨p, hp⟩ := List.length_eq_one.mp hblen
  obtain ⟨i, c⟩ := p
  have hmemsorted : ∀ q ∈ sortByWidthSum (measureCols s.columns s.buffer).enum,
      q.2 ∈ measureCols s.columns s.buffer :=
    fun q hq => mem_enum_snd (hperm.subset hq)
  have hcmem : c ∈ measureCols s.columns s.buffer := by
    have hmem : (i, c) ∈ sortByWidthSum (measureCols s.columns s.buffer).enum :=
      List.mem_of_mem_drop (hp ▸ List.mem_singleton_self (i, c))
    exact hmemsorted (i, c) hmem
  have hcw0 : c.width = 0 := hw0m c hcmem
  have hcnat : colNatural c = max c.min_width c.max_width := hnat c hcmem
  have hcmin : c.min_width ≤ colNatural c := by
    unfold colNatural
    omega
  have hsortnat : ((sortByWidthSum (measureCols s.columns s.buffer).enum).map
        (fun q => colNatural q.2)).sum
      = ((measureCols s.columns s.buffer).map colNatural).sum := by
    rw [(hperm.map _).sum_eq]
    exact enum_map_sum colNatural (measureCols s.columns s.buffer)
  have hsplitsum : (((sortByWidthSum (measureCols s.columns s.buffer).enum).take
        ((measureCols s.columns s.buffer).length - 1)).map
        (fun q => colNatural q.2)).sum + colNatural c
      = ((measureCols s.columns s.buffer).map colNatural).sum := by
    rw [← hsortnat]
    conv_rhs => rw [← hsplit]
    rw [List.map_append, List.sum_append, hp]
    simp
  have htakemax : (((sortByWidthSum (measureCols s.columns s.buffer).enum).take
        ((measureCols s.columns s.buffer).length - 1)).map
        (fun q => max q.2.min_width q.2.max_width)).sum
      = (((sortByWidthSum (measureCols s.columns s.buffer).enum).take
        ((measureCols s.columns s.buffer).length - 1)).map
        (fun q => colNatural q.2)).sum :=
    congrArg List.sum (List.map_congr_left
      (fun q hq => (hnat q.2 (hmemsorted q (List.mem_of_mem_take hq))).symm))
  have hdropmin : (((sortByWidthSum (measureCols s.columns s.buffer).enum).drop
        ((measureCols s.columns s.buffer).length - 1)).map
        (fun q => q.2.min_width)).sum = c.min_width := by
    rw [hp]
    simp
  -- feasibility gate for `num_big = 1`
  have hgate : ¬ ((((sortByWidthSum (measureCols s.columns s.buffer).enum).take
        ((measureCols s.columns s.buffer).length - 1)).map
        (fun q => max q.2.min_width q.2.max_width)).sum
      + (((sortByWidthSum (measureCols s.columns s.buffer).enum).drop
        ((measureCols s.columns s.buffer).length - 1)).map
        (fun q => q.2.min_width)).sum
      > s.max_width - borderOverhead s.borders s.padding
        - dividerOverhead (measureCols s.columns s.buffer).length s.padding) := by
    rw [htakemax, hdropmin, hdl]
    omega
  -- the big-column pool is exactly the last column's natural width
  have hsw := smallAssign_sum ((sortByWidthSum (measureCols s.columns s.buffer).enum).take
    ((measureCols s.columns s.buffer).length - 1))
  have hpool : s.max_width - borderOverhead s.borders s.padding
      - dividerOverhead (measureCols s.columns s.buffer).length s.padding
      - ((smallAssign ((sortByWidthSum (measureCols s.columns s.buffer).enum).take
          ((measureCols s.columns s.buffer).length - 1))).map
          (fun q => q.2.width)).sum
      = colNatural c := by
    rw [hsw, htakemax, hdl]
    omega
  -- pass1 does not pin the single big column
  have hpass : pass1 ((sortByWidthSum (measureCols s.columns s.buffer).enum).drop
        ((measureCols s.columns s.buffer).length - 1))
      (s.max_width - borderOverhead s.borders s.padding
        - dividerOverhead (measureCols s.columns s.buffer).length s.padding
        - ((smallAssign ((sortByWidthSum (measureCols s.columns s.buffer).enum).take
            ((measureCols s.columns s.buffer).length - 1))).map
            (fun q => q.2.width)).sum) 1
      = ([(i, c)], colNatural c, 1) := by
    rw [hp, pass1_cons]
    rw [hpool]
    rw [if_neg (by rw [Nat.div_one]; omega)]
    rfl
  -- the second pass hands the column its whole pool
  have hbig : bigAssign ([(i, c)], colNatural c, 1)
      = [(i, { c with width := colNatural c })] := by
    unfold bigAssign
    rw [if_pos (by norm_num)]
    simp only [Nat.div_one, Nat.one_mul, Nat.sub_self]
    rw [if_neg (by omega)]
    simp [hcw0]
  -- the assembled pair list is the natural-width map of the sorted list
  have hsm : smallAssign ((sortByWidthSum (measureCols s.columns s.buffer).enum).take
        ((measureCols s.columns s.buffer).length - 1))
      = ((sortByWidthSum (measureCols s.columns s.buffer).enum).take
        ((measureCols s.columns s.buffer).length - 1)).map
        (fun q => (q.1, { q.2 with width := colNatural q.2 })) := by
    unfold smallAssign
    exact List.map_congr_left (fun q hq => by
      rw [hnat q.2 (hmemsorted q (List.mem_of_mem_take hq))])
  have hall2 : smallAssign ((sortByWidthSum (measureCols s.columns s.buffer).enum).take
        ((measureCols s.columns s.buffer).length - 1))
      ++ [(i, { c with width := colNatural c })]
      = (sortByWidthSum (measureCols s.columns s.buffer).enum).map
        (fun q => (q.1, { q.2 with width := colNatural q.2 })) := by
    rw [hsm]
    conv_rhs => rw [← hsplit]
    rw [List.map_append, hp]
    rfl
  -- the write-back restores the measured order with natural widths
  have hperm2 : ((sortByWidthSum (measureCols s.columns s.buffer).enum).map
        (fun q => (q.1, { q.2 with width := colNatural q.2 }))).Perm
      (((measureCols s.columns s.buffer).map
        (fun c => { c with width := colNatural c })).enum) := by
    rw [List.enum_map]
    exact hperm.map _
  have hfinal : restoreOrder (smallAssign ((sortByWidthSum
        (measureCols s.columns s.buffer).enum).take
        ((measureCols s.columns s.buffer).length - 1))
      ++ bigAssign (pass1 ((sortByWidthSum (measureCols s.columns s.buffer).enum).drop
          ((measureCols s.columns s.buffer).length - 1))
        (s.max_width - borderOverhead s.borders s.padding
          - dividerOverhead (measureCols s.columns s.buffer).length s.padding
          - ((smallAssign ((sortByWidthSum (measureCols s.columns s.buffer).enum).take
              ((measureCols s.columns s.buffer).length - 1))).map
              (fun q => q.2.width)).sum) 1))
      = (measureCols s.columns s.buffer).map (fun c => { c with width := colNatural c }) := by
    rw [hpass, hbig, hall2]
    exact restoreOrder_eq _ _ hperm2
  -- `penalize_big_cols` succeeds at `num_big = 1` with exactly that result
  have hpen : penalizeBigCols (measureCols s.columns s.buffer)
      (s.max_width - borderOverhead s.borders s.padding
        - dividerOverhead (measureCols s.columns s.buffer).length s.padding) 1
      = some ((measureCols s.columns s.buffer).map
        (fun c => { c with width := colNatural c })) := by
    simp only [penalizeBigCols]
    rw [if_neg hgate, hfinal]
  -- the natural-fit comparison is strict, so the overflow path runs
  have hnotfit : ¬ (((measureCols s.columns s.buffer).map colNatural).sum
      < s.max_width - borderOverhead s.borders s.padding
        - dividerOverhead (measureCols s.columns s.buffer).length s.padding) := by
    rw [hdl]
    omega
  have hfs : (List.range' 1 (measureCols s.columns s.buffer).length).findSome?
      (fun k => penalizeBigCols (measureCols s.columns s.buffer)
        (s.max_width - borderOverhead s.borders s.padding
          - dividerOverhead (measureCols s.columns s.buffer).length s.padding) k)
      = some ((measureCols s.columns s.buffer).map
        (fun c => { c with width := colNatural c })) := by
    have hrange : List.range' 1 (measureCols s.columns s.buffer).length
        = 1 :: List.range' 2 ((measureCols s.columns s.buffer).length - 1) := by
      conv_lhs => rw [(by omega : (measureCols s.columns s.buffer).length
        = ((measureCols s.columns s.buffer).length - 1) + 1)]
      rw [List.range'_succ]
    rw [hrange, List.findSome?_cons]
    simp only [hpen]
  simp only [Stream.calcSizes, hun, Bool.false_eq_true, if_false, if_neg hnotfit, hfs]

/-- C10 witness: the amended statement on the headerless exact-fit session
(two default columns, budget 28, cell widths 5 and 20, `Σ natural = 25 =
available_width`): each column ends at its natural width and the table
spans the full budget. -/
theorem overflow_on_exact_fit_witness :
    exactFitOkStream.calcSizes = Except.ok { exactFitOkStream with
      sizes_calculated := true,
      width := exactFitOkStream.max_width,
      columns := (measureCols exactFitOkStream.columns exactFitOkStream.buffer).map
        (fun c => { c with width := colNatural c }) } :=
  overflow_on_exact_fit exactFitOkStream (by decide) (by decide) (by decide) rfl
    (by decide) (by decide)

theorem foldl_printRow_state :
    ∀ (rows : List (List GStr)) (s : Stream),
      (rows.foldl Stream.printRow s).grow = s.grow
      ∧ (rows.foldl Stream.printRow s).sizes_calculated = s.sizes_calculated
      ∧ (rows.foldl Stream.printRow s).buffer = s.buffer
      ∧ (rows.foldl Stream.printRow s).width = s.width := by
  intro rows
  induction rows with
  | nil => intro s; exact ⟨rfl, rfl, rfl, rfl⟩
  | cons r rs ih => intro s; exact ih (s.printRow r)

theorem printHeaders_state (s : Stream) :
    s.printHeaders.grow = s.grow
    ∧ s.printHeaders.sizes_calculated = s.sizes_calculated
    ∧ s.printHeaders.buffer = s.buffer
    ∧ s.printHeaders.width = s.width := by
  unfold Stream.printHeaders Stream.hr Stream.writeLine
  dsimp only
  split <;> split <;> exact ⟨rfl, rfl, rfl, rfl⟩

theorem calcSizes_state (s : Stream) (hun : s.sizes_calculated = false) :
    ∀ s2, s.calcSizes = Except.ok s2 →
      s2.grow = s.grow ∧ s2.sizes_calculated = true ∧ s2.buffer = s.buffer := by
  intro s2 hok
  simp only [Stream.calcSizes, hun, Bool.false_eq_true, if_false] at hok
  split at hok
  · rw [Except.ok.injEq] at hok
    subst hok
    exact ⟨rfl, rfl, rfl⟩
  · split at hok
    · rw [Except.ok.injEq] at hok
      subst hok
      exact ⟨rfl, rfl, rfl⟩
    · exact absurd hok (by simp)

theorem calcSizes_width_shrink (s : Stream) (hun : s.sizes_calculated = false)
    (hg : s.grow = none)
    (hfit : ((measureCols s.columns s.buffer).map colNatural).sum
        < s.max_width - borderOverhead s.borders s.padding
          - dividerOverhead (measureCols s.columns s.buffer).length s.padding) :
    ∀ s2, s.calcSizes = Except.ok s2 →
      s2.width = ((measureCols s.columns s.buffer).map colNatural).sum
        + dividerOverhead (measureCols s.columns s.buffer).length s.padding
        + borderOverhead s.borders s.padding := by
  intro s2 hok
  simp only [Stream.calcSizes, hun, Bool.false_eq_true, if_false, if_pos hfit, hg,
    Option.getD, if_false] at hok
  rw [Except.ok.injEq] at hok
  subst hok
  rfl

theorem writeBuffer_state (s : Stream) (_hun : s.sizes_calculated = false) :
    ∀ s2, s.writeBuffer = Except.ok s2 →
      ∃ sc, s.calcSizes = Except.ok sc
        ∧ s2.grow = sc.grow ∧ s2.sizes_calculated = sc.sizes_calculated
        ∧ s2.buffer = [] ∧ s2.width = sc.width := by
  intro s2 h
  unfold Stream.writeBuffer at h
  cases hok : s.calcSizes with
  | error e =>
    rw [hok] at h
    simp [Bind.bind, Except.bind] at h
  | ok sc =>
    rw [hok] at h
    simp only [Bind.bind, Except.bind, pure, Except.pure, Except.ok.injEq] at h
    subst h
    obtain ⟨hg, hs, hb, hw⟩ := foldl_printRow_state sc.printHeaders.buffer
      { sc.printHeaders with buffer := [] }
    obtain ⟨hg2, hs2, hb2, hw2⟩ := printHeaders_state sc
    exact ⟨sc, rfl, by rw [hg]; exact hg2, by rw [hs]; exact hs2, hb,
      by rw [hw]; exact hw2⟩

/-- C5 (confirmed): `row` buffers while sizes are uncommitted and forces a
commit, defaulting `grow` to `true` if unset, once the pending buffer
exceeds 100 entries; a `finish` that commits first leaves `grow` unset (so
the sizing engine treats it as `false`) and, on the natural-fit path, the
table width shrinks to `Σ natural + overhead`, strictly below the full
budget; after commit every `row` call formats and writes immediately. -/
theorem commit_trigger_and_grow_defaults (s : Stream) (d : List GStr) :
    (s.sizes_calculated = false → s.buffer.length < 100 →
      s.rowAdd d = Except.ok { s with buffer := s.buffer ++ [d] })
    ∧ (s.sizes_calculated = false → s.buffer.length = 100 →
      s.rowAdd d
        = Stream.writeBuffer { s with
            buffer := s.buffer ++ [d], grow := s.grow.or (some true) }
      ∧ (s.grow = none → ∀ s2, s.rowAdd d = Except.ok s2 →
          s2.grow = some true ∧ s2.sizes_calculated = true ∧ s2.buffer = []))
    ∧ (s.sizes_calculated = false → s.grow = none → s.buffer ≠ [] →
      ∀ s2, s.finish = Except.ok s2 →
        s2.grow = none
        ∧ (((measureCols s.columns s.buffer).map colNatural).sum
              < s.max_width - borderOverhead s.borders s.padding
                - dividerOverhead (measureCols s.columns s.buffer).length s.padding →
            s2.width = ((measureCols s.columns s.buffer).map colNatural).sum
                + dividerOverhead (measureCols s.columns s.buffer).length s.padding
                + borderOverhead s.borders s.padding
            ∧ (borderOverhead s.borders s.padding
                  + dividerOverhead (measureCols s.columns s.buffer).length s.padding
                  ≤ s.max_width →
                s2.width < s.max_width)))
    ∧ (s.sizes_calculated = true →
      s.rowAdd d = Except.ok (s.printRow d)
      ∧ (s.printRow d).buffer = s.buffer
      ∧ (s.printRow d).output = s.output
          ++ [borderLeftG s.borders s.padding
              ++ List.intercalate (dividerG s.padding) (renderCells s.columns d)
              ++ borderRightG s.borders s.padding]) := by
  refine ⟨?_, ?_, ?_, ?_⟩
  · intro h1 h2
    simp only [Stream.rowAdd, h1, Bool.false_eq_true, if_false]
    rw [if_neg (by simp; omega)]
  · intro h1 h2
    have heq : s.rowAdd d
        = Stream.writeBuffer { s with
            buffer := s.buffer ++ [d], grow := s.grow.or (some true) } := by
      simp only [Stream.rowAdd, h1, Bool.false_eq_true, if_false]
      rw [if_pos (by simp; omega)]
    refine ⟨heq, ?_⟩
    intro hg s2 hs2
    rw [heq] at hs2
    obtain ⟨sc, hsc, hg2, hs2', hb2, _⟩ := writeBuffer_state
      { s with buffer := s.buffer ++ [d], grow := s.grow.or (some true) } h1 s2 hs2
    obtain ⟨hg3, hs3, _⟩ := calcSizes_state
      { s with buffer := s.buffer ++ [d], grow := s.grow.or (some true) } h1 sc hsc
    refine ⟨?_, ?_, hb2⟩
    · rw [hg2, hg3]
      simp [hg, Option.or]
    · rw [hs2', hs3]
  · intro h1 hg hne s2 hs2
    unfold Stream.finish at hs2
    rw [(by simp [List.isEmpty_iff, hne] : s.buffer.isEmpty = false)] at hs2
    simp only [Bool.false_eq_true, if_false] at hs2
    cases hwb : s.writeBuffer with
    | error e =>
      rw [hwb] at hs2
      simp [Bind.bind, Except.bind] at hs2
    | ok sw =>
      rw [hwb] at hs2
      simp only [Bind.bind, Except.bind, pure, Except.pure, Except.ok.injEq] at hs2
      subst hs2
      obtain ⟨sc, hsc, hg2, _, _, hw2⟩ := writeBuffer_state s h1 sw hwb
      obtain ⟨hg3, _, _⟩ := calcSizes_state s h1 sc hsc
      constructor
      · show sw.grow = none
        rw [hg2, hg3]
        exact hg
      · intro hfit
        have hwidth := calcSizes_width_shrink s h1 hg hfit sc hsc
        constructor
        · show sw.width = _
          rw [hw2, hwidth]
        · intro hOH
          show sw.width < s.max_width
          rw [hw2, hwidth]
          omega
  · intro h1
    refine ⟨?_, rfl, rfl⟩
    simp only [Stream.rowAdd, h1, if_true]

set_option maxRecDepth 8000 in
set_option maxHeartbeats 1000000 in
/-- C5 witness: buffering on the golden session (empty buffer), the forced
commit with `grow` defaulting to `true` at the 101st row, the shrink on
`finish` (width 1 < budget 5), and immediate writing once committed. -/
theorem commit_trigger_and_grow_defaults_witness :
    goldenStream.rowAdd [asciiG "Cody", asciiG "41", asciiG "yellow"]
        = Except.ok { goldenStream with
            buffer := goldenStream.buffer ++ [[asciiG "Cody", asciiG "41", asciiG "yellow"]] }
    ∧ (∃ s2, thresholdStream.rowAdd [aRun 1] = Except.ok s2
        ∧ s2.grow = some true ∧ s2.sizes_calculated = true ∧ s2.buffer = [])
    ∧ (∃ s2, shrinkStream.finish = Except.ok s2
        ∧ s2.grow = none ∧ s2.width = 1 ∧ s2.width < shrinkStream.max_width)
    ∧ committedStream.rowAdd [aRun 1] = Except.ok (committedStream.printRow [aRun 1]) := by
  refine ⟨?_, ?_, ?_, ?_⟩
  · exact (commit_trigger_and_grow_defaults goldenStream _).1 rfl (by decide)
  · refine ⟨_, rfl, ((commit_trigger_and_grow_defaults thresholdStream [aRun 1]).2.1
      rfl rfl).2 rfl _ rfl⟩
  · have h := (commit_trigger_and_grow_defaults shrinkStream [aRun 1]).2.2.1
      rfl rfl (by decide)
    refine ⟨_, rfl, (h _ rfl).1, ?_, ?_⟩
    · exact ((h _ rfl).2 (by decide)).1.trans (by decide)
    · exact ((h _ rfl).2 (by decide)).2 (by decide)
  · exact ((commit_trigger_and_grow_defaults committedStream [aRun 1]).2.2.2 rfl).1

/-- C9 (confirmed): header cells are always rendered center-aligned —
replacing every column's alignment changes neither the header block nor the
header line, while data rows do use each column's alignment, which
genuinely distinguishes `Left` from `Right`. -/
theorem header_row_always_centered (s : Stream) (a : Alignment) (row : List GStr) :
    (Stream.printHeaders { s with columns := s.columns.map (alignSet a) }).output
      = s.printHeaders.output
    ∧ headerLineG (s.columns.map (alignSet a)) s.borders s.padding
      = headerLineG s.columns s.borders s.padding
    ∧ (s.printRow row).output = s.output
        ++ [borderLeftG s.borders s.padding
            ++ List.intercalate (dividerG s.padding) (renderCells s.columns row)
            ++ borderRightG s.borders s.padding]
    ∧ renderCells [alignSet .Left { Column.new with width := 3 }] [[⟨'a', 1, 1⟩]]
      ≠ renderCells [alignSet .Right { Column.new with width := 3 }] [[⟨'a', 1, 1⟩]] := by
  have hline : headerLineG (s.columns.map (alignSet a)) s.borders s.padding
      = headerLineG s.columns s.borders s.padding := by
    unfold headerLineG alignSet
    rw [List.map_map]
    rfl
  have hany : (s.columns.map (alignSet a)).any (fun c => c.header.isSome)
      = s.columns.any (fun c => c.header.isSome) := by
    rw [List.any_map]
    rfl
  refine ⟨?_, hline, rfl, by decide⟩
  unfold Stream.printHeaders Stream.hr Stream.writeLine
  cases s.title <;> dsimp only <;> simp only [hany, hline] <;> (split <;> rfl)

/-- C8 (confirmed): constructing a stream over an empty column vector hits
the `num_cols - 1` underflow in `max_width` (a `usize` subtraction panic),
while any non-empty column vector constructs normally. -/
theorem zero_columns_underflow (tw : Nat) (cols : List Column) (hc : cols ≠ []) :
    Stream.newChecked [] tw = Except.error "attempt to subtract with overflow"
    ∧ Stream.newChecked cols tw = Except.ok (Stream.new cols tw) := by
  constructor
  · rfl
  · match cols, hc with
    | c :: cs, _ =>
      simp [Stream.newChecked, Stream.new, Stream.maxWidthChecked, Stream.maxWidthSet,
            Stream.init, checkedSub, dividerOverhead, Nat.succ_le_succ]

/-- C8 witness: a one-column stream constructs; the empty one panics. -/
theorem zero_columns_underflow_witness :
    Stream.newChecked [Column.new] 80 = Except.ok (Stream.new [Column.new] 80) :=
  (zero_columns_underflow 80 [Column.new] (by simp)).2

end Tablestream
